import Mathlib

/-!
Formal model of `skgarden.quantile.utils.weighted_percentile`
(src/skgarden/quantile/utils.py).

The Python function computes weighted percentiles of a 1-D sample array by
linear interpolation over the weighted cumulative distribution.  We embed it
shallowly: numpy float32 arrays become `List ℚ` (the algorithm is pure
rational arithmetic on the inputs), numpy exceptions become an explicit
error type, and the scalar-vs-array polymorphism of the rank argument `q`
(and of the return value) is made explicit with the `NDVal` type.
-/

namespace SkGarden

/-- Errors the Python code can raise.
  * `qOutOfRange`    — `ValueError("q should be in-between 0 and 100")` (utils.py line 49)
  * `lengthMismatch` — `ValueError("a and weights should have the same length.")` (line 54)
  * `zeroSizeReduce` — numpy `ValueError` from `q.max()` / `q.min()` on an empty array (line 48)
  * `indexError`     — numpy `IndexError`, either from a bad fancy index `a[sorter]`
                       (lines 57-58) or from `sorted_cum_weights[-1]` on an empty
                       array (line 74). -/
inductive Err where
  | qOutOfRange
  | lengthMismatch
  | zeroSizeReduce
  | indexError
deriving DecidableEq, Repr

/-- A Python value that is either a scalar number or a 1-D numpy array.
Used both for the rank argument `q` and for the return value. -/
inductive NDVal where
  | scalar (x : ℚ)
  | arr (xs : List ℚ)
deriving DecidableEq, Repr

instance : DecidableEq (Except Err NDVal) := fun
  | .ok a, .ok b =>
    if h : a = b then .isTrue (h ▸ rfl) else .isFalse (fun hc => h (Except.ok.inj hc))
  | .ok _, .error _ => .isFalse (fun hc => Except.noConfusion hc)
  | .error _, .ok _ => .isFalse (fun hc => Except.noConfusion hc)
  | .error a, .error b =>
    if h : a = b then .isTrue (h ▸ rfl)
    else .isFalse (fun hc => h (Except.error.inj hc))

/-- Lines 43-46: `if isinstance(q, (int, float)): q = np.array([q])` followed by
`q = np.array(q).flatten()` — the ranks as a flat list. -/
def flattenQ : NDVal → List ℚ
  | .scalar x => [x]
  | .arr xs => xs

/-- Running sums with initial accumulator `acc`:
`cumsumFrom acc [w0, w1, ...] = [acc+w0, acc+w0+w1, ...]`. -/
def cumsumFrom (acc : ℚ) : List ℚ → List ℚ
  | [] => []
  | w :: ws => (acc + w) :: cumsumFrom (acc + w) ws

/-- Line 73: `np.cumsum(sorted_weights)`. -/
def cumsum (ws : List ℚ) : List ℚ := cumsumFrom 0 ws

/-- Line 78: `np.searchsorted(partial_sum, q)` with the default `side='left'`.
On an ascending array (the only way the code reaches it: `partial_sum` is
ascending whenever the filtered weights are nonnegative) this is the number of
entries strictly below `v`, i.e. the left insertion index. -/
def searchsorted (xs : List ℚ) (v : ℚ) : ℕ := xs.countP (fun x => decide (x < v))

/-- Line 77: `100.0 / total * (sorted_cum_weights - sorted_weights / 2.0)`,
elementwise over the two equal-length arrays. -/
def positions (total : ℚ) (cw sw : List ℚ) : List ℚ :=
  (cw.zip sw).map (fun p => 100 / total * (p.1 - p.2 / 2))

/-- Lines 78-88, for one rank `qi`: `start = searchsorted(partial_sum, q) - 1`;
`q_values[start == len-1] = sorted_a[-1]`, then `q_values[start == -1] = sorted_a[0]`
(the `-1` assignment is second, so it wins, which matters only for empty input),
otherwise linear interpolation between `sorted_a[start]` and `sorted_a[start+1]`. -/
def interpOne (sa pos : List ℚ) (qi : ℚ) : ℚ :=
  let start : ℤ := (searchsorted pos qi : ℤ) - 1
  if start = -1 then sa.headD 0
  else if start = (pos.length : ℤ) - 1 then sa.getLastD 0
  else
    let k := start.toNat
    sa.getD k 0 +
      (qi - pos.getD k 0) / (pos.getD (k + 1) 0 - pos.getD k 0) *
        (sa.getD (k + 1) 0 - sa.getD k 0)

/-- The comparison used to sort the (sample, weight) pairs: by sample value.
Line 65: `np.argsort(a)` orders by the values of `a`; the weights ride along. -/
def pairLE (p q : ℚ × ℚ) : Prop := p.1 ≤ q.1

instance : DecidableRel pairLE := fun p q => inferInstanceAs (Decidable (p.1 ≤ q.1))

instance : IsTotal (ℚ × ℚ) pairLE := ⟨fun p q => le_total p.1 q.1⟩

instance : IsTrans (ℚ × ℚ) pairLE := ⟨fun _ _ _ h h' => le_trans h h'⟩

/-- Lines 64-67: sort the (sample, weight) pairs ascending by sample value.
A stable insertion sort; `np.argsort` is deterministic and on ties any fixed
order gives a faithful model of one run of the code. -/
def sortPairs (l : List (ℚ × ℚ)) : List (ℚ × ℚ) := List.insertionSort pairLE l

/-- Lines 72-88 on already-filtered, already-sorted pairs `sp`:
cumulative weights, `total = sorted_cum_weights[-1]` (an `IndexError` when the
array is empty), the midpoint positions, and one interpolated value per rank. -/
def wpSorted (sp : List (ℚ × ℚ)) (qs : List ℚ) : Except Err (List ℚ) :=
  let sa := sp.map Prod.fst
  let sw := sp.map Prod.snd
  let cw := cumsum sw
  match cw.getLast? with
  | none => .error .indexError
  | some total => .ok (qs.map (interpOne sa (positions total cw sw)))

/-- Line 60-62: the mask `weights != 0` applied to both arrays, as a filter on
the zipped pairs (the arrays have equal length when this line is reached). -/
def filterNZ (a ws : List ℚ) : List (ℚ × ℚ) :=
  (a.zip ws).filter (fun p => decide (p.2 ≠ 0))

/-- Lines 56-58: numpy fancy indexing `a[sorter]`; `none` models the
`IndexError` on an out-of-range index. -/
def applySorter (xs : List ℚ) (s : List ℕ) : Option (List ℚ) :=
  if s.all (fun i => decide (i < xs.length)) then some (s.map (fun i => xs.getD i 0))
  else none

/-- Lines 40-41: `if weights is None: weights = np.ones_like(a)` — the
effective weight array. -/
def wsOf (a : List ℚ) (weights : Option (List ℚ)) : List ℚ :=
  match weights with
  | none => List.replicate a.length 1
  | some w => w

/-- The full function `weighted_percentile(a, q, weights=None, sorter=None)`
(utils.py lines 3-90).  Returns the numpy array `q_values` (always an array,
whatever the shape of `q`) or the exception the code raises. -/
def weighted_percentile (a : List ℚ) (q : NDVal)
    (weights : Option (List ℚ) := none) (sorter : Option (List ℕ) := none) :
    Except Err NDVal :=
  -- line 40-41: weights = np.ones_like(a)
  let ws := wsOf a weights
  let qs := flattenQ q
  -- line 48: q.max() / q.min() raise on an empty array
  if qs.isEmpty then .error .zeroSizeReduce
  -- line 48-49: if q.max() > 100 or q.min() < 0: raise ValueError
  else if qs.any (fun x => decide (100 < x)) || qs.any (fun x => decide (x < 0)) then
    .error .qOutOfRange
  -- line 53-54: if len(a) != len(weights): raise ValueError
  else if a.length ≠ ws.length then .error .lengthMismatch
  else
    match sorter with
    | none =>
      -- lines 60-62 then 64-67: filter zero weights, then argsort
      (wpSorted (sortPairs (filterNZ a ws)) qs).map NDVal.arr
    | some s =>
      -- lines 56-58: a = a[sorter]; weights = weights[sorter]
      match applySorter a s, applySorter ws s with
      | some a1, some w1 =>
        -- lines 60-62 then 68-70: filter zero weights, skip the sort
        (wpSorted (filterNZ a1 w1) qs).map NDVal.arr
      | _, _ => .error .indexError

theorem wsOf_some (a w : List ℚ) : wsOf a (some w) = w := rfl

theorem wsOf_none (a : List ℚ) : wsOf a none = List.replicate a.length 1 := rfl

/-! ### Basic facts about `cumsum` -/

theorem length_cumsumFrom (acc : ℚ) (ws : List ℚ) :
    (cumsumFrom acc ws).length = ws.length := by
  induction ws generalizing acc with
  | nil => rfl
  | cons w ws ih => simp [cumsumFrom, ih]

theorem length_cumsum (ws : List ℚ) : (cumsum ws).length = ws.length :=
  length_cumsumFrom 0 ws

theorem cumsumFrom_getD (acc : ℚ) (ws : List ℚ) (i : ℕ) (h : i < ws.length) :
    (cumsumFrom acc ws).getD i 0 = acc + (ws.take (i + 1)).sum := by
  induction ws generalizing acc i with
  | nil => simp at h
  | cons w ws ih =>
    cases i with
    | zero => simp [cumsumFrom]
    | succ i =>
      have := ih (acc + w) i (by simpa using h)
      simp only [cumsumFrom, List.getD_cons_succ, List.take_succ_cons, List.sum_cons]
      rw [this]; ring

theorem cumsum_getD (ws : List ℚ) (i : ℕ) (h : i < ws.length) :
    (cumsum ws).getD i 0 = (ws.take (i + 1)).sum := by
  simpa using cumsumFrom_getD 0 ws i h

theorem cumsumFrom_getLast? (acc : ℚ) (ws : List ℚ) (h : ws ≠ []) :
    (cumsumFrom acc ws).getLast? = some (acc + ws.sum) := by
  induction ws generalizing acc with
  | nil => exact absurd rfl h
  | cons w ws ih =>
    cases ws with
    | nil => simp [cumsumFrom]
    | cons x xs =>
      have := ih (acc + w) (by simp)
      simp only [cumsumFrom] at this ⊢
      rw [List.getLast?_cons_cons, this]
      simp; ring

theorem cumsum_getLast? (ws : List ℚ) (h : ws ≠ []) :
    (cumsum ws).getLast? = some ws.sum := by
  simpa using cumsumFrom_getLast? 0 ws h

/-! ### `searchsorted` on ascending arrays -/

theorem searchsorted_le_length (xs : List ℚ) (v : ℚ) :
    searchsorted xs v ≤ xs.length :=
  List.countP_le_length _

theorem searchsorted_mono (xs : List ℚ) {v v' : ℚ} (h : v ≤ v') :
    searchsorted xs v ≤ searchsorted xs v' :=
  List.countP_mono_left fun x _ hx => by
    simp only [decide_eq_true_eq] at hx ⊢; exact lt_of_lt_of_le hx h

/-- Entries strictly before the insertion index are below `v`. -/
theorem getD_lt_of_lt_searchsorted {xs : List ℚ} (hs : List.Sorted (· ≤ ·) xs)
    {v : ℚ} {j : ℕ} (hj : j < searchsorted xs v) : xs.getD j 0 < v := by
  induction xs generalizing j with
  | nil => simp [searchsorted] at hj
  | cons x xs ih =>
    rw [List.sorted_cons] at hs
    by_cases hx : x < v
    · cases j with
      | zero => simpa using hx
      | succ j =>
        apply ih hs.2
        have : searchsorted (x :: xs) v = searchsorted xs v + 1 := by
          simp [searchsorted, List.countP_cons, hx]
        omega
    · exfalso
      have h0 : searchsorted (x :: xs) v = 0 := by
        rw [searchsorted, List.countP_eq_zero]
        intro b hb
        simp only [decide_eq_true_eq]
        rcases List.mem_cons.mp hb with rfl | hb
        · exact hx
        · exact fun hbv => hx (lt_of_le_of_lt (hs.1 b hb) hbv)
      omega

/-- Entries at or after the insertion index are at least `v`. -/
theorem le_getD_of_searchsorted_le {xs : List ℚ} (hs : List.Sorted (· ≤ ·) xs)
    {v : ℚ} {j : ℕ} (h1 : searchsorted xs v ≤ j) (h2 : j < xs.length) :
    v ≤ xs.getD j 0 := by
  induction xs generalizing j with
  | nil => simp at h2
  | cons x xs ih =>
    rw [List.sorted_cons] at hs
    cases j with
    | zero =>
      have : searchsorted (x :: xs) v = 0 := Nat.le_zero.mp h1
      rw [searchsorted, List.countP_eq_zero] at this
      have := this x (List.mem_cons_self x xs)
      simp only [decide_eq_true_eq] at this
      simpa using not_lt.mp this
    | succ j =>
      by_cases hx : x < v
      · have hcnt : searchsorted (x :: xs) v = searchsorted xs v + 1 := by
          simp [searchsorted, List.countP_cons, hx]
        exact ih hs.2 (by omega) (by simpa using h2)
      · have hxj : xs.getD j 0 ∈ xs := by
          have hj : j < xs.length := by simpa using h2
          rw [List.getD_eq_getElem _ _ hj]
          exact List.getElem_mem hj
        calc v ≤ x := not_lt.mp hx
        _ ≤ xs.getD j 0 := hs.1 _ hxj
        _ = (x :: xs).getD (j + 1) 0 := rfl

/-! ### Index monotonicity in sorted lists -/

theorem sorted_getD_mono {xs : List ℚ} (hs : List.Sorted (· ≤ ·) xs)
    {i j : ℕ} (hij : i ≤ j) (hj : j < xs.length) :
    xs.getD i 0 ≤ xs.getD j 0 := by
  rcases eq_or_lt_of_le hij with rfl | hij
  · exact le_refl _
  · have hi : i < xs.length := lt_trans hij hj
    rw [List.getD_eq_getElem _ _ hi, List.getD_eq_getElem _ _ hj]
    exact (List.pairwise_iff_getElem.mp hs) i j hi hj hij

theorem headD_eq_getD_zero (xs : List ℚ) : xs.headD 0 = xs.getD 0 0 := by
  cases xs <;> rfl

theorem getLastD_eq_getD (xs : List ℚ) (h : xs ≠ []) :
    xs.getLastD 0 = xs.getD (xs.length - 1) 0 := by
  have hlt : xs.length - 1 < xs.length := by
    have : xs.length ≠ 0 := fun h0 => h (List.eq_nil_of_length_eq_zero h0)
    omega
  rw [List.getLastD_eq_getLast?, List.getLast?_eq_getElem?,
    List.getElem?_eq_getElem hlt, List.getD_eq_getElem _ _ hlt]
  rfl

/-- A strictly increasing adjacent chain gives strict order between any two indices. -/
theorem getD_lt_of_adjacent {xs : List ℚ}
    (h : ∀ k, k + 1 < xs.length → xs.getD k 0 < xs.getD (k + 1) 0)
    {i j : ℕ} (hij : i < j) (hj : j < xs.length) :
    xs.getD i 0 < xs.getD j 0 := by
  induction j with
  | zero => omega
  | succ j ih =>
    rcases Nat.lt_succ_iff_lt_or_eq.mp hij with h' | h'
    · exact lt_trans (ih h' (by omega)) (h j hj)
    · subst h'; exact h i hj

theorem sorted_of_adjacent {xs : List ℚ}
    (h : ∀ k, k + 1 < xs.length → xs.getD k 0 < xs.getD (k + 1) 0) :
    List.Sorted (· ≤ ·) xs := by
  rw [List.Sorted, List.pairwise_iff_getElem]
  intro i j hi hj hij
  have := getD_lt_of_adjacent h hij hj
  rw [List.getD_eq_getElem _ _ hi, List.getD_eq_getElem _ _ hj] at this
  exact le_of_lt this

/-- In a sorted list, the head is the minimum. -/
theorem sorted_headD_eq_min {xs : List ℚ} (hs : List.Sorted (· ≤ ·) xs)
    {m : ℚ} (hm : m ∈ xs) (hmin : ∀ x ∈ xs, m ≤ x) : xs.headD 0 = m := by
  have hne : xs ≠ [] := List.ne_nil_of_mem hm
  have h0 : 0 < xs.length := List.length_pos.mpr hne
  have hhead : xs.headD 0 ∈ xs := by
    rw [headD_eq_getD_zero, List.getD_eq_getElem _ _ h0]
    exact List.getElem_mem h0
  rcases List.mem_iff_getElem.mp hm with ⟨j, hj, hjm⟩
  have h1 : xs.headD 0 ≤ m := by
    rw [headD_eq_getD_zero, ← hjm, ← List.getD_eq_getElem _ 0 hj]
    exact sorted_getD_mono hs (Nat.zero_le j) hj
  exact le_antisymm h1 (hmin _ hhead)

/-- In a sorted list, the last entry is the maximum. -/
theorem sorted_getLastD_eq_max {xs : List ℚ} (hs : List.Sorted (· ≤ ·) xs)
    {m : ℚ} (hm : m ∈ xs) (hmax : ∀ x ∈ xs, x ≤ m) : xs.getLastD 0 = m := by
  have hne : xs ≠ [] := List.ne_nil_of_mem hm
  have hlt : xs.length - 1 < xs.length := by
    have : xs.length ≠ 0 := fun h0 => hne (List.eq_nil_of_length_eq_zero h0)
    omega
  have hlast : xs.getLastD 0 ∈ xs := by
    rw [getLastD_eq_getD _ hne, List.getD_eq_getElem _ _ hlt]
    exact List.getElem_mem hlt
  rcases List.mem_iff_getElem.mp hm with ⟨j, hj, hjm⟩
  have h1 : m ≤ xs.getLastD 0 := by
    rw [getLastD_eq_getD _ hne, ← hjm, ← List.getD_eq_getElem _ 0 hj]
    exact sorted_getD_mono hs (by omega) hlt
  exact le_antisymm (hmax _ hlast) h1

/-! ### The midpoint position array -/

theorem length_positions (t : ℚ) (cw sw : List ℚ) :
    (positions t cw sw).length = min cw.length sw.length := by
  simp [positions]

theorem positions_getD (t : ℚ) (cw sw : List ℚ) (i : ℕ)
    (hc : i < cw.length) (hw : i < sw.length) :
    (positions t cw sw).getD i 0 = 100 / t * (cw.getD i 0 - sw.getD i 0 / 2) := by
  have hz : i < (cw.zip sw).length := by rw [List.length_zip]; omega
  have hp : i < (positions t cw sw).length := by rw [length_positions]; omega
  rw [List.getD_eq_getElem _ _ hp, List.getD_eq_getElem _ _ hc, List.getD_eq_getElem _ _ hw]
  simp [positions, List.getElem_zip]

/-- Shorthand for the position array actually computed by `wpSorted`:
total weight is the last cumulative sum, i.e. the sum of all weights. -/
def posOf (sw : List ℚ) : List ℚ := positions sw.sum (cumsum sw) sw

theorem length_posOf (sw : List ℚ) : (posOf sw).length = sw.length := by
  rw [posOf, length_positions, length_cumsum]; omega

theorem getD_mem_of_lt {xs : List ℚ} {i : ℕ} (h : i < xs.length) : xs.getD i 0 ∈ xs := by
  rw [List.getD_eq_getElem _ _ h]; exact List.getElem_mem h

/-- With strictly positive weights the total weight is strictly positive. -/
theorem sum_pos_of_pos {sw : List ℚ} (hpos : ∀ x ∈ sw, 0 < x) (hne : sw ≠ []) :
    0 < sw.sum :=
  List.sum_pos sw hpos hne

/-- Adjacent positions strictly increase when all weights are strictly positive:
`pos[k+1] - pos[k] = 100/total * (w[k+1] + w[k])/2 > 0`. -/
theorem posOf_adjacent {sw : List ℚ} (hpos : ∀ x ∈ sw, 0 < x)
    (k : ℕ) (hk : k + 1 < sw.length) :
    (posOf sw).getD k 0 < (posOf sw).getD (k + 1) 0 := by
  have hne : sw ≠ [] := by intro h; rw [h] at hk; simp at hk
  have htot : 0 < sw.sum := sum_pos_of_pos hpos hne
  have hck : k < (cumsum sw).length := by rw [length_cumsum]; omega
  have hck1 : k + 1 < (cumsum sw).length := by rw [length_cumsum]; omega
  rw [posOf, positions_getD _ _ _ k hck (by omega), positions_getD _ _ _ (k + 1) hck1 hk]
  have hcum : (cumsum sw).getD (k + 1) 0 = (cumsum sw).getD k 0 + sw.getD (k + 1) 0 := by
    rw [cumsum_getD sw (k + 1) hk, cumsum_getD sw k (by omega),
      List.sum_take_succ _ (k + 1) hk, List.getD_eq_getElem _ _ hk]
  have hwk : 0 < sw.getD k 0 := hpos _ (getD_mem_of_lt (by omega))
  have hwk1 : 0 < sw.getD (k + 1) 0 := hpos _ (getD_mem_of_lt hk)
  have hfac : 0 < 100 / sw.sum := by positivity
  apply mul_lt_mul_of_pos_left _ hfac
  rw [hcum]
  linarith

/-- With strictly positive weights every position is strictly positive
(`cum[i] - w[i]/2 = sum(take i) + w[i]/2 > 0`). -/
theorem posOf_pos {sw : List ℚ} (hpos : ∀ x ∈ sw, 0 < x)
    (i : ℕ) (hi : i < sw.length) : 0 < (posOf sw).getD i 0 := by
  have hne : sw ≠ [] := by intro h; rw [h] at hi; simp at hi
  have htot : 0 < sw.sum := sum_pos_of_pos hpos hne
  have hci : i < (cumsum sw).length := by rw [length_cumsum]; omega
  rw [posOf, positions_getD _ _ _ i hci hi, cumsum_getD _ _ hi,
    List.sum_take_succ _ i hi]
  have htake : 0 ≤ (sw.take i).sum :=
    List.sum_nonneg fun x hx => le_of_lt (hpos x (List.mem_of_mem_take hx))
  have hwi : 0 < sw[i] := hpos _ (List.getElem_mem hi)
  have hfac : 0 < 100 / sw.sum := by positivity
  have : 0 < (sw.take i).sum + sw[i] - sw.getD i 0 / 2 := by
    rw [List.getD_eq_getElem _ _ hi]; linarith
  positivity

/-- With strictly positive weights every position is strictly below 100
(`cum[i] - w[i]/2 < cum[i] ≤ total`). -/
theorem posOf_lt_100 {sw : List ℚ} (hpos : ∀ x ∈ sw, 0 < x)
    (i : ℕ) (hi : i < sw.length) : (posOf sw).getD i 0 < 100 := by
  have hne : sw ≠ [] := by intro h; rw [h] at hi; simp at hi
  have htot : 0 < sw.sum := sum_pos_of_pos hpos hne
  have hci : i < (cumsum sw).length := by rw [length_cumsum]; omega
  rw [posOf, positions_getD _ _ _ i hci hi, cumsum_getD _ _ hi]
  have hdrop : 0 ≤ (sw.drop (i + 1)).sum :=
    List.sum_nonneg fun x hx => le_of_lt (hpos x (List.mem_of_mem_drop hx))
  have hsplit : (sw.take (i + 1)).sum + (sw.drop (i + 1)).sum = sw.sum :=
    List.sum_take_add_sum_drop sw (i + 1)
  have hcle : (sw.take (i + 1)).sum ≤ sw.sum := by linarith
  have hwi : 0 < sw.getD i 0 := hpos _ (getD_mem_of_lt hi)
  have hlt : (sw.take (i + 1)).sum - sw.getD i 0 / 2 < sw.sum := by linarith
  rw [div_mul_eq_mul_div, div_lt_iff₀ htot]
  nlinarith

/-! ### Branch analysis of `interpOne` -/

theorem interpOne_of_searchsorted_zero (sa pos : List ℚ) (qi : ℚ)
    (h : searchsorted pos qi = 0) : interpOne sa pos qi = sa.headD 0 := by
  rw [interpOne, h]
  norm_num

theorem interpOne_of_searchsorted_length (sa pos : List ℚ) (qi : ℚ)
    (hne : pos ≠ []) (h : searchsorted pos qi = pos.length) :
    interpOne sa pos qi = sa.getLastD 0 := by
  have hlen : 0 < pos.length := List.length_pos.mpr hne
  rw [interpOne, h]
  rw [if_neg (by omega : ¬((pos.length : ℤ) - 1 = -1)), if_pos rfl]

theorem interpOne_interior (sa pos : List ℚ) (qi : ℚ) (k : ℕ)
    (hk : searchsorted pos qi = k + 1) (h2 : k + 1 < pos.length) :
    interpOne sa pos qi =
      sa.getD k 0 +
        (qi - pos.getD k 0) / (pos.getD (k + 1) 0 - pos.getD k 0) *
          (sa.getD (k + 1) 0 - sa.getD k 0) := by
  rw [interpOne, hk]
  have hne1 : ¬((k + 1 : ℤ) - 1 = -1) := by omega
  have hne2 : ¬((k + 1 : ℤ) - 1 = (pos.length : ℤ) - 1) := by omega
  simp only [Nat.cast_add, Nat.cast_one, if_neg hne1, if_neg hne2]
  norm_num

/-! ### Bounds and monotonicity of the interpolated value -/

/-- In the interior branch the interpolation fraction lies in (0,1], so the
value stays between the two bracketing samples. -/
theorem interp_interior_bounds {sa pos : List ℚ} {qi : ℚ} {k : ℕ}
    (hlen : pos.length = sa.length) (hsa : List.Sorted (· ≤ ·) sa)
    (hadj : ∀ j, j + 1 < pos.length → pos.getD j 0 < pos.getD (j + 1) 0)
    (hk : searchsorted pos qi = k + 1) (h2 : k + 1 < pos.length) :
    sa.getD k 0 ≤ interpOne sa pos qi ∧ interpOne sa pos qi ≤ sa.getD (k + 1) 0 := by
  have hps : List.Sorted (· ≤ ·) pos := sorted_of_adjacent hadj
  have hpk_lt : pos.getD k 0 < qi :=
    getD_lt_of_lt_searchsorted hps (by omega)
  have hqle : qi ≤ pos.getD (k + 1) 0 :=
    le_getD_of_searchsorted_le hps (by omega) h2
  have hden : 0 < pos.getD (k + 1) 0 - pos.getD k 0 := sub_pos.mpr (hadj k h2)
  have hf0 : 0 < (qi - pos.getD k 0) / (pos.getD (k + 1) 0 - pos.getD k 0) :=
    div_pos (by linarith) hden
  have hf1 : (qi - pos.getD k 0) / (pos.getD (k + 1) 0 - pos.getD k 0) ≤ 1 :=
    (div_le_one hden).mpr (by linarith)
  have hd : 0 ≤ sa.getD (k + 1) 0 - sa.getD k 0 :=
    sub_nonneg.mpr (sorted_getD_mono hsa (Nat.le_succ k) (by omega))
  rw [interpOne_interior _ _ _ k hk h2]
  constructor
  · nlinarith
  · nlinarith

/-- The interpolated value always lies between the first and last sorted sample. -/
theorem interp_bounds {sa pos : List ℚ} (qi : ℚ)
    (hlen : pos.length = sa.length) (hne : sa ≠ [])
    (hsa : List.Sorted (· ≤ ·) sa)
    (hadj : ∀ j, j + 1 < pos.length → pos.getD j 0 < pos.getD (j + 1) 0) :
    sa.headD 0 ≤ interpOne sa pos qi ∧ interpOne sa pos qi ≤ sa.getLastD 0 := by
  have hlen0 : 0 < sa.length := List.length_pos.mpr hne
  have hlast : sa.getLastD 0 = sa.getD (sa.length - 1) 0 := getLastD_eq_getD sa hne
  have hhl : sa.headD 0 ≤ sa.getLastD 0 := by
    rw [headD_eq_getD_zero, hlast]
    exact sorted_getD_mono hsa (by omega) (by omega)
  have hle := searchsorted_le_length pos qi
  rcases Nat.eq_zero_or_pos (searchsorted pos qi) with h0 | h1
  · rw [interpOne_of_searchsorted_zero _ _ _ h0]
    exact ⟨le_refl _, hhl⟩
  · rcases eq_or_lt_of_le hle with heq | hlt
    · have hpne : pos ≠ [] := by
        intro h; subst h; simp [searchsorted] at h1
      rw [interpOne_of_searchsorted_length _ _ _ hpne heq]
      exact ⟨hhl, le_refl _⟩
    · obtain ⟨k, hk⟩ : ∃ k, searchsorted pos qi = k + 1 :=
        ⟨searchsorted pos qi - 1, by omega⟩
      have h2 : k + 1 < pos.length := by omega
      obtain ⟨hlb, hub⟩ := interp_interior_bounds hlen hsa hadj hk h2
      constructor
      · calc sa.headD 0 = sa.getD 0 0 := headD_eq_getD_zero sa
        _ ≤ sa.getD k 0 := sorted_getD_mono hsa (Nat.zero_le k) (by omega)
        _ ≤ interpOne sa pos qi := hlb
      · calc interpOne sa pos qi ≤ sa.getD (k + 1) 0 := hub
        _ ≤ sa.getD (sa.length - 1) 0 := sorted_getD_mono hsa (by omega) (by omega)
        _ = sa.getLastD 0 := hlast.symm

/-- The interpolated value is monotone non-decreasing in the requested rank. -/
theorem interp_mono {sa pos : List ℚ} {q1 q2 : ℚ}
    (hlen : pos.length = sa.length) (hne : sa ≠ [])
    (hsa : List.Sorted (· ≤ ·) sa)
    (hadj : ∀ j, j + 1 < pos.length → pos.getD j 0 < pos.getD (j + 1) 0)
    (h12 : q1 ≤ q2) :
    interpOne sa pos q1 ≤ interpOne sa pos q2 := by
  have hs12 : searchsorted pos q1 ≤ searchsorted pos q2 := searchsorted_mono pos h12
  have hle1 := searchsorted_le_length pos q1
  have hle2 := searchsorted_le_length pos q2
  rcases Nat.eq_zero_or_pos (searchsorted pos q1) with h0 | hpos1
  · rw [interpOne_of_searchsorted_zero _ _ _ h0]
    exact (interp_bounds q2 hlen hne hsa hadj).1
  · rcases eq_or_lt_of_le hle2 with heq2 | hlt2
    · have hpne : pos ≠ [] := by
        intro h; subst h; simp [searchsorted] at hpos1
      rw [interpOne_of_searchsorted_length _ _ _ hpne heq2]
      exact (interp_bounds q1 hlen hne hsa hadj).2
    · obtain ⟨k1, hk1⟩ : ∃ k, searchsorted pos q1 = k + 1 :=
        ⟨searchsorted pos q1 - 1, by omega⟩
      obtain ⟨k2, hk2⟩ : ∃ k, searchsorted pos q2 = k + 1 :=
        ⟨searchsorted pos q2 - 1, by omega⟩
      have h21 : k1 + 1 < pos.length := by omega
      have h22 : k2 + 1 < pos.length := by omega
      rcases eq_or_lt_of_le hs12 with heq | hltk
      · have hkk : k1 = k2 := by omega
        subst hkk
        have hps : List.Sorted (· ≤ ·) pos := sorted_of_adjacent hadj
        have hden : 0 < pos.getD (k1 + 1) 0 - pos.getD k1 0 := sub_pos.mpr (hadj k1 h21)
        have hd : 0 ≤ sa.getD (k1 + 1) 0 - sa.getD k1 0 :=
          sub_nonneg.mpr (sorted_getD_mono hsa (Nat.le_succ k1) (by omega))
        rw [interpOne_interior _ _ _ k1 hk1 h21, interpOne_interior _ _ _ k1 hk2 h21]
        have hfr : (q1 - pos.getD k1 0) / (pos.getD (k1 + 1) 0 - pos.getD k1 0) ≤
            (q2 - pos.getD k1 0) / (pos.getD (k1 + 1) 0 - pos.getD k1 0) := by
          gcongr
        nlinarith
      · have hb1 := (interp_interior_bounds hlen hsa hadj hk1 h21).2
        have hb2 := (interp_interior_bounds hlen hsa hadj hk2 h22).1
        calc interpOne sa pos q1 ≤ sa.getD (k1 + 1) 0 := hb1
        _ ≤ sa.getD k2 0 := sorted_getD_mono hsa (by omega) (by omega)
        _ ≤ interpOne sa pos q2 := hb2

/-! ### The sorted (sample, weight) pairs -/

theorem sortPairs_perm (l : List (ℚ × ℚ)) : (sortPairs l).Perm l :=
  List.perm_insertionSort pairLE l

theorem sortPairs_sorted (l : List (ℚ × ℚ)) : List.Sorted pairLE (sortPairs l) :=
  List.sorted_insertionSort pairLE l

theorem sorted_fst_of_pairLE {l : List (ℚ × ℚ)} (h : List.Sorted pairLE l) :
    List.Sorted (· ≤ ·) (l.map Prod.fst) := by
  rw [List.Sorted, List.pairwise_map]
  exact h

theorem mem_filterNZ {a w : List ℚ} {p : ℚ × ℚ} (hp : p ∈ filterNZ a w) :
    p.2 ≠ 0 ∧ p.1 ∈ a ∧ p.2 ∈ w := by
  rw [filterNZ, List.mem_filter] at hp
  obtain ⟨hz, hnz⟩ := hp
  have hmem := List.of_mem_zip hz
  simp only [decide_eq_true_eq] at hnz
  exact ⟨hnz, hmem.1, hmem.2⟩

/-- After filtering, nonnegative input weights become strictly positive. -/
theorem sp_snd_pos (a w : List ℚ) (hw : ∀ x ∈ w, 0 ≤ x) :
    ∀ x ∈ (sortPairs (filterNZ a w)).map Prod.snd, 0 < x := by
  intro x hx
  rw [List.mem_map] at hx
  obtain ⟨p, hp, rfl⟩ := hx
  obtain ⟨hnz, _, hw2⟩ := mem_filterNZ ((sortPairs_perm _).mem_iff.mp hp)
  exact lt_of_le_of_ne (hw _ hw2) (Ne.symm hnz)

theorem posOf_adj {sw : List ℚ} (hpos : ∀ x ∈ sw, 0 < x) :
    ∀ j, j + 1 < (posOf sw).length →
      (posOf sw).getD j 0 < (posOf sw).getD (j + 1) 0 := by
  intro j hj
  rw [length_posOf] at hj
  exact posOf_adjacent hpos j hj

/-! ### Reduction of `weighted_percentile` to its computational core -/

/-- A scalar rank behaves exactly like the one-element rank array it is
converted to on line 44. -/
theorem wp_scalar_eq_arr (a : List ℚ) (x : ℚ) (w : Option (List ℚ))
    (s : Option (List ℕ)) :
    weighted_percentile a (.scalar x) w s = weighted_percentile a (.arr [x]) w s := rfl

theorem wpSorted_eq (sp : List (ℚ × ℚ)) (qs : List ℚ) (hne : sp ≠ []) :
    wpSorted sp qs =
      .ok (qs.map (interpOne (sp.map Prod.fst) (posOf (sp.map Prod.snd)))) := by
  have hsw : sp.map Prod.snd ≠ [] := by simpa using hne
  simp only [wpSorted, cumsum_getLast? _ hsw, posOf]

/-- With valid ranks, matching lengths and no sorter, the function runs the
filter-sort-interpolate pipeline. -/
theorem wp_none_eq (a : List ℚ) (w : Option (List ℚ)) (qs : List ℚ)
    (hlen : a.length = (wsOf a w).length) (hne : qs ≠ [])
    (hq : ∀ x ∈ qs, 0 ≤ x ∧ x ≤ 100) :
    weighted_percentile a (.arr qs) w none
      = (wpSorted (sortPairs (filterNZ a (wsOf a w))) qs).map NDVal.arr := by
  have h1 : qs.isEmpty = false := by
    cases qs with
    | nil => exact absurd rfl hne
    | cons x xs => rfl
  have h2 : (qs.any fun x => decide (100 < x)) = false :=
    List.any_eq_false.mpr fun x hx => by
      simp only [decide_eq_true_eq]
      exact not_lt.mpr (hq x hx).2
  have h3 : (qs.any fun x => decide (x < 0)) = false :=
    List.any_eq_false.mpr fun x hx => by
      simp only [decide_eq_true_eq]
      exact not_lt.mpr (hq x hx).1
  simp only [weighted_percentile, flattenQ, h1, h2, h3, Bool.or_self,
    Bool.false_eq_true, if_false]
  exact if_neg fun hc => hc hlen

/-- The function depends on `q` only through the flattened rank list
(lines 43-46). -/
theorem wp_flatten (a : List ℚ) (q : NDVal) (w : Option (List ℚ))
    (s : Option (List ℕ)) :
    weighted_percentile a q w s
      = weighted_percentile a (.arr (flattenQ q)) w s := by
  cases q <;> rfl

/-- Positions of every entry of `posOf sw` are strictly positive (positive weights). -/
theorem posOf_all_pos {sw : List ℚ} (hswpos : ∀ x ∈ sw, 0 < x) :
    ∀ x ∈ posOf sw, 0 < x := by
  intro x hx
  rcases List.mem_iff_getElem.mp hx with ⟨i, hi, rfl⟩
  have hi' : i < sw.length := by rwa [length_posOf] at hi
  have := posOf_pos hswpos i hi'
  rwa [List.getD_eq_getElem _ _ hi] at this

/-- Every entry of `posOf sw` is strictly below 100 (positive weights). -/
theorem posOf_all_lt_100 {sw : List ℚ} (hswpos : ∀ x ∈ sw, 0 < x) :
    ∀ x ∈ posOf sw, x < 100 := by
  intro x hx
  rcases List.mem_iff_getElem.mp hx with ⟨i, hi, rfl⟩
  have hi' : i < sw.length := by rwa [length_posOf] at hi
  have := posOf_lt_100 hswpos i hi'
  rwa [List.getD_eq_getElem _ _ hi] at this

/-! ## The claims -/

/-- C9: for samples `[10, 20]` with weights `[3, 1]` and rank 50 the computed
weighted median equals 12.5, which is strictly below the unweighted midpoint 15
(the result is pulled towards the sample with the larger mass). -/
theorem C9_concrete_weighted_median :
    weighted_percentile [10, 20] (.scalar 50) (some [3, 1]) none
      = .ok (.arr [25 / 2]) ∧ (25 : ℚ) / 2 < 15 := by
  constructor
  · norm_num [weighted_percentile, wsOf, flattenQ, wpSorted, filterNZ, sortPairs,
      List.insertionSort, List.orderedInsert, cumsum, cumsumFrom, positions,
      searchsorted, List.countP_cons, interpOne, pairLE, Except.map, applySorter]
  · norm_num

/-- C2 (failing part, evaluated): a scalar rank does NOT produce a
scalar-shaped result — the code always returns the flat numpy array
`q_values`; for `a = [1,2,3]`, scalar `q = 50` it returns the one-element
array `[2]`, never the bare scalar `2` (the docstring promises a float). -/
theorem C2_scalar_rank_returns_array :
    weighted_percentile [1, 2, 3] (.scalar 50) none none = .ok (.arr [2]) ∧
    ∀ vs : List ℚ,
      weighted_percentile [1, 2, 3] (.scalar 50) none none = .ok (.arr vs) →
        vs.length = 1 := by
  have h2 : weighted_percentile [1, 2, 3] (.scalar 50) none none
      = .ok (.arr [2]) := by
    norm_num [weighted_percentile, wsOf, flattenQ, wpSorted, filterNZ, sortPairs,
      List.insertionSort, List.orderedInsert, cumsum, cumsumFrom, positions,
      searchsorted, List.countP_cons, interpOne, pairLE, Except.map, applySorter]
  refine ⟨h2, fun vs hvs => ?_⟩
  rw [h2] at hvs
  have : vs = [2] := by simpa using hvs.symm
  rw [this]
  rfl

/-- C7: with strictly positive (filtered) weights the midpoint position array
`position[i] = 100/total * (cumWeight[i] - weight[i]/2)` (with
`total = cumWeight[last]`) is strictly increasing, so each interpolation
denominator `position[k+1] - position[k]` is strictly positive. -/
theorem C7_positions_strictly_increasing (sw : List ℚ)
    (hpos : ∀ x ∈ sw, 0 < x) (k : ℕ)
    (hk : k + 1 < (positions ((cumsum sw).getLastD 0) (cumsum sw) sw).length) :
    (positions ((cumsum sw).getLastD 0) (cumsum sw) sw).getD k 0
        < (positions ((cumsum sw).getLastD 0) (cumsum sw) sw).getD (k + 1) 0 ∧
    0 < (positions ((cumsum sw).getLastD 0) (cumsum sw) sw).getD (k + 1) 0
        - (positions ((cumsum sw).getLastD 0) (cumsum sw) sw).getD k 0 := by
  rw [length_positions, length_cumsum, min_self] at hk
  have hne : sw ≠ [] := by
    intro h; rw [h] at hk; simp at hk
  have htot : (cumsum sw).getLastD 0 = sw.sum := by
    rw [List.getLastD_eq_getLast?, cumsum_getLast? _ hne]
    rfl
  rw [htot]
  have h := posOf_adjacent hpos k hk
  rw [posOf] at h
  exact ⟨h, by linarith⟩

theorem C7_witness :
    (∀ x ∈ ([1, 2] : List ℚ), 0 < x) ∧
    0 + 1 < (positions ((cumsum [1, 2]).getLastD 0) (cumsum [1, 2]) [1, 2]).length ∧
    (positions ((cumsum [1, 2]).getLastD 0) (cumsum [1, 2]) [1, 2]).getD 0 0
        < (positions ((cumsum [1, 2]).getLastD 0) (cumsum [1, 2]) [1, 2]).getD 1 0 :=
  ⟨by decide, by decide,
    (C7_positions_strictly_increasing [1, 2] (by decide) 0 (by decide)).1⟩

/-- C8 (counterexample): on an empty sample array, or when every weight is
zero, the code does not raise an invalid-argument style `ValueError`; it
crashes with a numpy `IndexError` from `sorted_cum_weights[-1]` on an empty
array (line 74) — a different failure, and there is no
"no samples with positive weight" message anywhere in the code. -/
theorem C8_counterexample :
    weighted_percentile ([] : List ℚ) (.scalar 50) none none
        = .error .indexError ∧
    weighted_percentile [1, 2] (.scalar 50) (some [0, 0]) none
        = .error .indexError ∧
    Err.indexError ≠ Err.qOutOfRange ∧ Err.indexError ≠ Err.lengthMismatch := by
  refine ⟨by decide, by decide, by decide, by decide⟩

/-- C8 (amended): for every call (no sorter) in which validation passes but no
sample survives the zero-weight filter — in particular an empty sample array
or all weights zero — the operation fails with the `IndexError` from taking
the last element of the empty cumulative-weight array; it never returns a
numeric result. -/
theorem C8_amended_degenerate_is_index_error (a : List ℚ) (w : Option (List ℚ))
    (q : NDVal) (hne : flattenQ q ≠ [])
    (hq : ∀ x ∈ flattenQ q, 0 ≤ x ∧ x ≤ 100)
    (hlen : a.length = (wsOf a w).length)
    (hdeg : filterNZ a (wsOf a w) = []) :
    weighted_percentile a q w none = .error .indexError := by
  rw [wp_flatten, wp_none_eq a w (flattenQ q) hlen hne hq, hdeg]
  rfl

theorem C8_amended_witness :
    flattenQ (.scalar 50) ≠ [] ∧
    (∀ x ∈ flattenQ (.scalar 50), (0 : ℚ) ≤ x ∧ x ≤ 100) ∧
    ([1, 2] : List ℚ).length = (wsOf [1, 2] (some [0, 0])).length ∧
    filterNZ [1, 2] (wsOf [1, 2] (some [0, 0])) = [] ∧
    weighted_percentile [1, 2] (.scalar 50) (some [0, 0]) none
        = .error .indexError :=
  ⟨by decide, by decide, by decide, by decide,
    C8_amended_degenerate_is_index_error [1, 2] (some [0, 0]) (.scalar 50)
      (by decide) (by decide) (by decide) (by decide)⟩

/-- C1: whenever some sample has non-zero weight (all weights nonnegative, per
the data model), rank 0 returns the minimum and rank 100 the maximum sample
value among the samples with non-zero weight. `m` (resp. `M`) is that minimum
(resp. maximum): a member of the filtered sample values below (resp. above)
all of them; their existence encodes "at least one strictly positive weight". -/
theorem C1_rank0_min_rank100_max (a w : List ℚ) (m M : ℚ)
    (hlen : a.length = w.length) (hw : ∀ x ∈ w, 0 ≤ x)
    (hm : m ∈ (filterNZ a w).map Prod.fst)
    (hmin : ∀ x ∈ (filterNZ a w).map Prod.fst, m ≤ x)
    (hM : M ∈ (filterNZ a w).map Prod.fst)
    (hmax : ∀ x ∈ (filterNZ a w).map Prod.fst, x ≤ M) :
    weighted_percentile a (.scalar 0) (some w) none = .ok (.arr [m]) ∧
    weighted_percentile a (.scalar 100) (some w) none = .ok (.arr [M]) := by
  have hlen' : a.length = (wsOf a (some w)).length := hlen
  have hperm : (sortPairs (filterNZ a w)).Perm (filterNZ a w) := sortPairs_perm _
  have hfne : filterNZ a w ≠ [] := by
    intro h; rw [h] at hm; simp at hm
  have hspne : sortPairs (filterNZ a w) ≠ [] := by
    intro h
    have := hperm.length_eq
    rw [h] at this
    simp at this
    exact hfne (List.eq_nil_of_length_eq_zero this.symm)
  have hsa_sorted : List.Sorted (· ≤ ·) ((sortPairs (filterNZ a w)).map Prod.fst) :=
    sorted_fst_of_pairLE (sortPairs_sorted _)
  have hswpos : ∀ x ∈ (sortPairs (filterNZ a w)).map Prod.snd, 0 < x :=
    sp_snd_pos a w hw
  have hperm_fst : ((sortPairs (filterNZ a w)).map Prod.fst).Perm
      ((filterNZ a w).map Prod.fst) := hperm.map _
  have hm' : m ∈ (sortPairs (filterNZ a w)).map Prod.fst := hperm_fst.mem_iff.mpr hm
  have hmin' : ∀ x ∈ (sortPairs (filterNZ a w)).map Prod.fst, m ≤ x :=
    fun x hx => hmin x (hperm_fst.mem_iff.mp hx)
  have hM' : M ∈ (sortPairs (filterNZ a w)).map Prod.fst := hperm_fst.mem_iff.mpr hM
  have hmax' : ∀ x ∈ (sortPairs (filterNZ a w)).map Prod.fst, x ≤ M :=
    fun x hx => hmax x (hperm_fst.mem_iff.mp hx)
  constructor
  · rw [wp_scalar_eq_arr, wp_none_eq a (some w) [0] hlen' (by simp) (by norm_num),
      wsOf_some, wpSorted_eq _ _ hspne]
    have hz : searchsorted (posOf ((sortPairs (filterNZ a w)).map Prod.snd)) 0 = 0 := by
      rw [searchsorted, List.countP_eq_zero]
      intro x hx
      simp only [decide_eq_true_eq]
      exact not_lt.mpr (le_of_lt (posOf_all_pos hswpos x hx))
    have hval : interpOne ((sortPairs (filterNZ a w)).map Prod.fst)
        (posOf ((sortPairs (filterNZ a w)).map Prod.snd)) 0 = m := by
      rw [interpOne_of_searchsorted_zero _ _ _ hz]
      exact sorted_headD_eq_min hsa_sorted hm' hmin'
    simp only [List.map_cons, List.map_nil, hval, Except.map]
  · rw [wp_scalar_eq_arr, wp_none_eq a (some w) [100] hlen' (by simp) (by norm_num),
      wsOf_some, wpSorted_eq _ _ hspne]
    have hpos_ne : posOf ((sortPairs (filterNZ a w)).map Prod.snd) ≠ [] := by
      intro h
      have hl : (posOf ((sortPairs (filterNZ a w)).map Prod.snd)).length
          = (sortPairs (filterNZ a w)).length := by
        rw [length_posOf, List.length_map]
      rw [h] at hl
      simp at hl
      exact hspne (List.eq_nil_of_length_eq_zero hl.symm)
    have hfull : searchsorted (posOf ((sortPairs (filterNZ a w)).map Prod.snd)) 100
        = (posOf ((sortPairs (filterNZ a w)).map Prod.snd)).length := by
      rw [searchsorted, List.countP_eq_length]
      intro x hx
      simp only [decide_eq_true_eq]
      exact posOf_all_lt_100 hswpos x hx
    have hval : interpOne ((sortPairs (filterNZ a w)).map Prod.fst)
        (posOf ((sortPairs (filterNZ a w)).map Prod.snd)) 100 = M := by
      rw [interpOne_of_searchsorted_length _ _ _ hpos_ne hfull]
      exact sorted_getLastD_eq_max hsa_sorted hM' hmax'
    simp only [List.map_cons, List.map_nil, hval, Except.map]

theorem C1_witness :
    (([3, 1, 2] : List ℚ).length = ([1, 0, 1] : List ℚ).length) ∧
    (∀ x ∈ ([1, 0, 1] : List ℚ), 0 ≤ x) ∧
    ((2 : ℚ) ∈ (filterNZ [3, 1, 2] [1, 0, 1]).map Prod.fst) ∧
    (weighted_percentile [3, 1, 2] (.scalar 0) (some [1, 0, 1]) none
        = .ok (.arr [2]) ∧
      weighted_percentile [3, 1, 2] (.scalar 100) (some [1, 0, 1]) none
        = .ok (.arr [3])) :=
  ⟨by decide, by norm_num, by norm_num [filterNZ],
    C1_rank0_min_rank100_max [3, 1, 2] [1, 0, 1] 2 3 (by decide) (by norm_num)
      (by norm_num [filterNZ]) (by norm_num [filterNZ])
      (by norm_num [filterNZ]) (by norm_num [filterNZ])⟩

/-- C10: for every input with nonnegative weights, at least one of them
positive (witnessed by the existence of the filtered minimum `m` and maximum
`M`), and ranks in [0,100], every returned value lies between the minimum and
the maximum sample value among the samples with non-zero weight. -/
theorem C10_output_within_bounds (a w qs : List ℚ) (m M : ℚ)
    (hlen : a.length = w.length) (hw : ∀ x ∈ w, 0 ≤ x)
    (hne : qs ≠ []) (hq : ∀ x ∈ qs, 0 ≤ x ∧ x ≤ 100)
    (hm : m ∈ (filterNZ a w).map Prod.fst)
    (hmin : ∀ x ∈ (filterNZ a w).map Prod.fst, m ≤ x)
    (hM : M ∈ (filterNZ a w).map Prod.fst)
    (hmax : ∀ x ∈ (filterNZ a w).map Prod.fst, x ≤ M)
    (vs : List ℚ)
    (hvs : weighted_percentile a (.arr qs) (some w) none = .ok (.arr vs)) :
    ∀ v ∈ vs, m ≤ v ∧ v ≤ M := by
  have hlen' : a.length = (wsOf a (some w)).length := hlen
  have hperm : (sortPairs (filterNZ a w)).Perm (filterNZ a w) := sortPairs_perm _
  have hfne : filterNZ a w ≠ [] := by
    intro h; rw [h] at hm; simp at hm
  have hspne : sortPairs (filterNZ a w) ≠ [] := by
    intro h
    have := hperm.length_eq
    rw [h] at this
    simp at this
    exact hfne (List.eq_nil_of_length_eq_zero this.symm)
  have hsa_sorted : List.Sorted (· ≤ ·) ((sortPairs (filterNZ a w)).map Prod.fst) :=
    sorted_fst_of_pairLE (sortPairs_sorted _)
  have hswpos : ∀ x ∈ (sortPairs (filterNZ a w)).map Prod.snd, 0 < x :=
    sp_snd_pos a w hw
  have hperm_fst : ((sortPairs (filterNZ a w)).map Prod.fst).Perm
      ((filterNZ a w).map Prod.fst) := hperm.map _
  have hm' : m ∈ (sortPairs (filterNZ a w)).map Prod.fst := hperm_fst.mem_iff.mpr hm
  have hmin' : ∀ x ∈ (sortPairs (filterNZ a w)).map Prod.fst, m ≤ x :=
    fun x hx => hmin x (hperm_fst.mem_iff.mp hx)
  have hM' : M ∈ (sortPairs (filterNZ a w)).map Prod.fst := hperm_fst.mem_iff.mpr hM
  have hmax' : ∀ x ∈ (sortPairs (filterNZ a w)).map Prod.fst, x ≤ M :=
    fun x hx => hmax x (hperm_fst.mem_iff.mp hx)
  have hsane : (sortPairs (filterNZ a w)).map Prod.fst ≠ [] :=
    List.ne_nil_of_mem hm'
  have hlenp : (posOf ((sortPairs (filterNZ a w)).map Prod.snd)).length
      = ((sortPairs (filterNZ a w)).map Prod.fst).length := by
    rw [length_posOf, List.length_map, List.length_map]
  have hadj := posOf_adj hswpos
  rw [wp_none_eq a (some w) qs hlen' hne hq, wsOf_some,
    wpSorted_eq _ _ hspne] at hvs
  have hvs' : vs = qs.map (interpOne ((sortPairs (filterNZ a w)).map Prod.fst)
      (posOf ((sortPairs (filterNZ a w)).map Prod.snd))) := by
    have := Except.ok.inj hvs
    have := NDVal.arr.inj this
    exact this.symm
  subst hvs'
  intro v hv
  rw [List.mem_map] at hv
  obtain ⟨qi, _, rfl⟩ := hv
  obtain ⟨hlb, hub⟩ := interp_bounds qi hlenp hsane hsa_sorted hadj
  constructor
  · calc m = ((sortPairs (filterNZ a w)).map Prod.fst).headD 0 :=
        (sorted_headD_eq_min hsa_sorted hm' hmin').symm
    _ ≤ _ := hlb
  · calc interpOne _ _ qi ≤ ((sortPairs (filterNZ a w)).map Prod.fst).getLastD 0 := hub
    _ = M := sorted_getLastD_eq_max hsa_sorted hM' hmax'

theorem C10_witness :
    (([1, 2] : List ℚ).length = ([1, 1] : List ℚ).length) ∧
    (([50] : List ℚ) ≠ []) ∧
    (weighted_percentile [1, 2] (.arr [50]) (some [1, 1]) none
        = .ok (.arr [3 / 2])) ∧
    (∀ v ∈ ([3 / 2] : List ℚ), 1 ≤ v ∧ v ≤ 2) :=
  ⟨by decide, by decide,
    by norm_num [weighted_percentile, wsOf, flattenQ, wpSorted, filterNZ, sortPairs,
      List.insertionSort, List.orderedInsert, cumsum, cumsumFrom, positions,
      searchsorted, List.countP_cons, interpOne, pairLE, Except.map],
    C10_output_within_bounds [1, 2] [1, 1] [50] 1 2 (by decide) (by norm_num)
      (by decide) (by norm_num) (by norm_num [filterNZ]) (by norm_num [filterNZ])
      (by norm_num [filterNZ]) (by norm_num [filterNZ]) [3 / 2]
      (by norm_num [weighted_percentile, wsOf, flattenQ, wpSorted, filterNZ, sortPairs,
        List.insertionSort, List.orderedInsert, cumsum, cumsumFrom, positions,
        searchsorted, List.countP_cons, interpOne, pairLE, Except.map])⟩

/-- C3: for a fixed sample set with uniform weights (all equal to some
`c > 0`; nonzero and nonnegative per the data model) the computed percentile
is monotone non-decreasing in the rank. -/
theorem C3_uniform_weights_monotone (a : List ℚ) (c q1 q2 v1 v2 : ℚ)
    (ha : a ≠ []) (hc : 0 < c) (h0 : 0 ≤ q1) (h12 : q1 ≤ q2) (h100 : q2 ≤ 100)
    (hv1 : weighted_percentile a (.scalar q1)
        (some (List.replicate a.length c)) none = .ok (.arr [v1]))
    (hv2 : weighted_percentile a (.scalar q2)
        (some (List.replicate a.length c)) none = .ok (.arr [v2])) :
    v1 ≤ v2 := by
  set w : List ℚ := List.replicate a.length c with hwdef
  have hlen : a.length = w.length := by rw [hwdef, List.length_replicate]
  have hw : ∀ x ∈ w, 0 ≤ x := by
    intro x hx
    have hxc : x = c := List.eq_of_mem_replicate (hwdef ▸ hx)
    rw [hxc]
    exact le_of_lt hc
  have hfeq : filterNZ a w = a.zip w := by
    rw [filterNZ, List.filter_eq_self]
    intro p hp
    have := (List.of_mem_zip hp).2
    rw [hwdef] at this
    have hpc : p.2 = c := List.eq_of_mem_replicate this
    simp only [decide_eq_true_eq]
    rw [hpc]
    exact ne_of_gt hc
  have hfne : filterNZ a w ≠ [] := by
    rw [hfeq]
    intro h
    have := congrArg List.length h
    rw [List.length_zip, ← hlen] at this
    simp at this
    exact ha this
  have hperm : (sortPairs (filterNZ a w)).Perm (filterNZ a w) := sortPairs_perm _
  have hspne : sortPairs (filterNZ a w) ≠ [] := by
    intro h
    have := hperm.length_eq
    rw [h] at this
    simp at this
    exact hfne (List.eq_nil_of_length_eq_zero this.symm)
  have hsa_sorted : List.Sorted (· ≤ ·) ((sortPairs (filterNZ a w)).map Prod.fst) :=
    sorted_fst_of_pairLE (sortPairs_sorted _)
  have hswpos : ∀ x ∈ (sortPairs (filterNZ a w)).map Prod.snd, 0 < x :=
    sp_snd_pos a w hw
  have hsane : (sortPairs (filterNZ a w)).map Prod.fst ≠ [] := by
    intro h
    have := congrArg List.length h
    rw [List.length_map] at this
    simp at this
    exact hspne this
  have hlenp : (posOf ((sortPairs (filterNZ a w)).map Prod.snd)).length
      = ((sortPairs (filterNZ a w)).map Prod.fst).length := by
    rw [length_posOf, List.length_map, List.length_map]
  have hadj := posOf_adj hswpos
  have hlen' : a.length = (wsOf a (some w)).length := hlen
  rw [wp_scalar_eq_arr, wp_none_eq a (some w) [q1] hlen' (by simp)
      (by intro x hx; rw [List.mem_singleton] at hx; subst hx
          exact ⟨h0, le_trans h12 h100⟩),
    wsOf_some, wpSorted_eq _ _ hspne] at hv1
  rw [wp_scalar_eq_arr, wp_none_eq a (some w) [q2] hlen' (by simp)
      (by intro x hx; rw [List.mem_singleton] at hx; subst hx
          exact ⟨le_trans h0 h12, h100⟩),
    wsOf_some, wpSorted_eq _ _ hspne] at hv2
  have hv1' : v1 = interpOne ((sortPairs (filterNZ a w)).map Prod.fst)
      (posOf ((sortPairs (filterNZ a w)).map Prod.snd)) q1 := by
    have := NDVal.arr.inj (Except.ok.inj hv1)
    simpa using this.symm
  have hv2' : v2 = interpOne ((sortPairs (filterNZ a w)).map Prod.fst)
      (posOf ((sortPairs (filterNZ a w)).map Prod.snd)) q2 := by
    have := NDVal.arr.inj (Except.ok.inj hv2)
    simpa using this.symm
  rw [hv1', hv2']
  exact interp_mono hlenp hsane hsa_sorted hadj h12

theorem C3_witness :
    (([1, 2] : List ℚ) ≠ []) ∧ ((0 : ℚ) < 1) ∧
    ((0 : ℚ) ≤ 30) ∧ ((30 : ℚ) ≤ 60) ∧ ((60 : ℚ) ≤ 100) ∧
    ((11 : ℚ) / 10 ≤ 17 / 10) :=
  ⟨by decide, by norm_num, by norm_num, by norm_num, by norm_num,
    C3_uniform_weights_monotone [1, 2] 1 30 60 (11 / 10) (17 / 10)
      (by decide) (by norm_num) (by norm_num) (by norm_num) (by norm_num)
      (by norm_num [weighted_percentile, wsOf, flattenQ, wpSorted, filterNZ, sortPairs,
        List.insertionSort, List.orderedInsert, cumsum, cumsumFrom, positions,
        searchsorted, List.countP_cons, interpOne, pairLE, Except.map, List.replicate])
      (by norm_num [weighted_percentile, wsOf, flattenQ, wpSorted, filterNZ, sortPairs,
        List.insertionSort, List.orderedInsert, cumsum, cumsumFrom, positions,
        searchsorted, List.countP_cons, interpOne, pairLE, Except.map, List.replicate])⟩

/-! ### Inserting a zero-weight sample -/

theorem zip_insertIdx (a w : List ℚ) (i : ℕ) (x y : ℚ)
    (hi : i ≤ a.length) (hlen : a.length = w.length) :
    (List.insertIdx i x a).zip (List.insertIdx i y w)
      = List.insertIdx i (x, y) (a.zip w) := by
  induction i generalizing a w with
  | zero => simp [List.insertIdx_zero]
  | succ i ih =>
    cases a with
    | nil => simp at hi
    | cons a0 as =>
      cases w with
      | nil => simp at hlen
      | cons w0 ws =>
        rw [List.insertIdx_succ_cons, List.insertIdx_succ_cons, List.zip_cons_cons,
          List.zip_cons_cons, List.insertIdx_succ_cons,
          ih as ws (by simpa using hi) (by simpa using hlen)]

theorem filter_insertIdx {α : Type} (p : α → Bool) (l : List α) (i : ℕ) (y : α)
    (hi : i ≤ l.length) (hy : p y = false) :
    (List.insertIdx i y l).filter p = l.filter p := by
  induction i generalizing l with
  | zero => simp [List.insertIdx_zero, List.filter_cons, hy]
  | succ i ih =>
    cases l with
    | nil => simp at hi
    | cons a l =>
      rw [List.insertIdx_succ_cons, List.filter_cons, List.filter_cons,
        ih l (by simpa using hi) ]

theorem filterNZ_insertIdx_zero (a w : List ℚ) (i : ℕ) (x : ℚ)
    (hi : i ≤ a.length) (hlen : a.length = w.length) :
    filterNZ (List.insertIdx i x a) (List.insertIdx i 0 w) = filterNZ a w := by
  rw [filterNZ, filterNZ, zip_insertIdx a w i x 0 hi hlen,
    filter_insertIdx _ _ i (x, 0) (by rw [List.length_zip]; omega) (by simp)]

/-- C4: appending one additional sample with weight exactly 0 at any position
(no sorter supplied) leaves the result of every call unchanged: the
zero-weight sample is filtered out before sorting, cumulation and
interpolation, so it neither contributes mass nor appears as an endpoint. -/
theorem C4_zero_weight_sample_ignored (a w : List ℚ) (q : NDVal) (i : ℕ) (x : ℚ)
    (hlen : a.length = w.length) (hi : i ≤ a.length)
    (hq : ∀ r ∈ flattenQ q, 0 ≤ r ∧ r ≤ 100) :
    weighted_percentile (List.insertIdx i x a) q (some (List.insertIdx i 0 w)) none
      = weighted_percentile a q (some w) none := by
  rw [wp_flatten (List.insertIdx i x a) q, wp_flatten a q]
  rcases hqs : flattenQ q with _ | ⟨r, rs⟩
  · rfl
  · have hne : flattenQ q ≠ [] := by rw [hqs]; simp
    rw [← hqs]
    have hlen1 : (List.insertIdx i x a).length
        = (wsOf (List.insertIdx i x a) (some (List.insertIdx i 0 w))).length := by
      rw [wsOf_some, List.length_insertIdx i a hi,
        List.length_insertIdx i w (by omega), hlen]
    have hlen2 : a.length = (wsOf a (some w)).length := hlen
    rw [wp_none_eq _ _ _ hlen1 hne hq, wp_none_eq _ _ _ hlen2 hne hq,
      wsOf_some, wsOf_some, filterNZ_insertIdx_zero a w i x hi hlen]

theorem C4_witness :
    (([1, 2] : List ℚ).length = ([1, 1] : List ℚ).length) ∧ (1 ≤ ([1, 2] : List ℚ).length) ∧
    (∀ r ∈ flattenQ (.arr [0, 50, 100]), (0 : ℚ) ≤ r ∧ r ≤ 100) ∧
    weighted_percentile (List.insertIdx 1 99 [1, 2]) (.arr [0, 50, 100])
        (some (List.insertIdx 1 0 [1, 1])) none
      = weighted_percentile [1, 2] (.arr [0, 50, 100]) (some [1, 1]) none :=
  ⟨by decide, by decide, by norm_num [flattenQ],
    C4_zero_weight_sample_ignored [1, 2] [1, 1] (.arr [0, 50, 100]) 1 99
      (by decide) (by decide) (by norm_num [flattenQ])⟩

/-! ### Validation behavior -/

theorem wp_arr_qOutOfRange (a qs : List ℚ) (w : Option (List ℚ))
    (s : Option (List ℕ)) (hne : qs ≠ []) (hx : ∃ r ∈ qs, 100 < r ∨ r < 0) :
    weighted_percentile a (.arr qs) w s = .error .qOutOfRange := by
  have h1 : qs.isEmpty = false := by
    cases qs with
    | nil => exact absurd rfl hne
    | cons _ _ => rfl
  have hcond : (qs.any (fun x => decide (100 < x))
      || qs.any (fun x => decide (x < 0))) = true := by
    rw [Bool.or_eq_true, List.any_eq_true, List.any_eq_true]
    obtain ⟨r, hr, hh⟩ := hx
    rcases hh with h | h
    · exact Or.inl ⟨r, hr, by simpa using h⟩
    · exact Or.inr ⟨r, hr, by simpa using h⟩
  simp [weighted_percentile, flattenQ, h1, hcond]

theorem wp_arr_lengthMismatch (a qs : List ℚ) (w : Option (List ℚ))
    (s : Option (List ℕ)) (hne : qs ≠ [])
    (hq : ∀ r ∈ qs, 0 ≤ r ∧ r ≤ 100) (hlen : a.length ≠ (wsOf a w).length) :
    weighted_percentile a (.arr qs) w s = .error .lengthMismatch := by
  have h1 : qs.isEmpty = false := by
    cases qs with
    | nil => exact absurd rfl hne
    | cons _ _ => rfl
  have h2 : (qs.any fun x => decide (100 < x)) = false :=
    List.any_eq_false.mpr fun x hx => by
      simp only [decide_eq_true_eq]
      exact not_lt.mpr (hq x hx).2
  have h3 : (qs.any fun x => decide (x < 0)) = false :=
    List.any_eq_false.mpr fun x hx => by
      simp only [decide_eq_true_eq]
      exact not_lt.mpr (hq x hx).1
  simp [weighted_percentile, flattenQ, h1, h2, h3, hlen]

theorem wpSorted_map_ne_validation (sp : List (ℚ × ℚ)) (qs : List ℚ) :
    (wpSorted sp qs).map NDVal.arr ≠ .error .qOutOfRange ∧
    (wpSorted sp qs).map NDVal.arr ≠ .error .lengthMismatch := by
  cases hg : (cumsum (sp.map Prod.snd)).getLast? with
  | none => constructor <;> simp [wpSorted, hg, Except.map]
  | some t => constructor <;> simp [wpSorted, hg, Except.map]

theorem wp_arr_no_validation_error (a qs : List ℚ) (w : Option (List ℚ))
    (s : Option (List ℕ)) (hne : qs ≠ [])
    (hq : ∀ r ∈ qs, 0 ≤ r ∧ r ≤ 100) (hlen : a.length = (wsOf a w).length) :
    weighted_percentile a (.arr qs) w s ≠ .error .qOutOfRange ∧
    weighted_percentile a (.arr qs) w s ≠ .error .lengthMismatch := by
  have h1 : qs.isEmpty = false := by
    cases qs with
    | nil => exact absurd rfl hne
    | cons _ _ => rfl
  have h2 : (qs.any fun x => decide (100 < x)) = false :=
    List.any_eq_false.mpr fun x hx => by
      simp only [decide_eq_true_eq]
      exact not_lt.mpr (hq x hx).2
  have h3 : (qs.any fun x => decide (x < 0)) = false :=
    List.any_eq_false.mpr fun x hx => by
      simp only [decide_eq_true_eq]
      exact not_lt.mpr (hq x hx).1
  cases s with
  | none =>
    rw [wp_none_eq a w qs hlen hne hq]
    exact wpSorted_map_ne_validation _ _
  | some s' =>
    simp only [weighted_percentile, flattenQ, h1, h2, h3, Bool.or_self,
      Bool.false_eq_true, if_false]
    rw [if_neg fun hc => hc hlen]
    rcases ha1 : applySorter a s' with _ | a1 <;>
      rcases hw1 : applySorter (wsOf a w) s' with _ | w1
    · constructor <;> simp
    · constructor <;> simp
    · constructor <;> simp
    · exact wpSorted_map_ne_validation _ _

/-- C5: any rank outside [0,100] makes the call fail with the out-of-range
error before any computation; with all ranks in range, a sample/weight length
mismatch fails with the length-mismatch error; and when ranks are in range,
lengths match (and some weight is positive), neither validation error is
raised.  (The rank list is nonempty, as the data model requires at least one
rank.) -/
theorem C5_input_validation (a : List ℚ) (q : NDVal) (w : Option (List ℚ))
    (s : Option (List ℕ)) (hne : flattenQ q ≠ []) :
    ((∃ r ∈ flattenQ q, 100 < r ∨ r < 0) →
        weighted_percentile a q w s = .error .qOutOfRange) ∧
    ((∀ r ∈ flattenQ q, 0 ≤ r ∧ r ≤ 100) → a.length ≠ (wsOf a w).length →
        weighted_percentile a q w s = .error .lengthMismatch) ∧
    ((∀ r ∈ flattenQ q, 0 ≤ r ∧ r ≤ 100) → a.length = (wsOf a w).length →
        (∃ x ∈ wsOf a w, 0 < x) →
        weighted_percentile a q w s ≠ .error .qOutOfRange ∧
        weighted_percentile a q w s ≠ .error .lengthMismatch) := by
  refine ⟨fun hx => ?_, fun hq hl => ?_, fun hq hl _ => ?_⟩
  · rw [wp_flatten]
    exact wp_arr_qOutOfRange a _ w s hne hx
  · rw [wp_flatten]
    exact wp_arr_lengthMismatch a _ w s hne hq hl
  · rw [wp_flatten]
    exact wp_arr_no_validation_error a _ w s hne hq hl

theorem C5_witness :
    ((∃ r ∈ flattenQ (.arr [50, 101]), (100 : ℚ) < r ∨ r < 0) →
        weighted_percentile [1, 2] (.arr [50, 101]) (some [1, 1]) none
          = .error .qOutOfRange) ∧
    ((∀ r ∈ flattenQ (.arr [50, 101]), (0 : ℚ) ≤ r ∧ r ≤ 100) →
        ([1, 2] : List ℚ).length ≠ (wsOf [1, 2] (some [1, 1])).length →
        weighted_percentile [1, 2] (.arr [50, 101]) (some [1, 1]) none
          = .error .lengthMismatch) ∧
    ((∀ r ∈ flattenQ (.arr [50, 101]), (0 : ℚ) ≤ r ∧ r ≤ 100) →
        ([1, 2] : List ℚ).length = (wsOf [1, 2] (some [1, 1])).length →
        (∃ x ∈ wsOf [1, 2] (some [1, 1]), (0 : ℚ) < x) →
        weighted_percentile [1, 2] (.arr [50, 101]) (some [1, 1]) none
          ≠ .error .qOutOfRange ∧
        weighted_percentile [1, 2] (.arr [50, 101]) (some [1, 1]) none
          ≠ .error .lengthMismatch) :=
  C5_input_validation [1, 2] (.arr [50, 101]) (some [1, 1]) none (by decide)

/-! ### Sorter path vs argsort path -/

/-- Two pair lists that are permutations of each other, with the same
duplicate-free first components in the same order, are equal. -/
theorem eq_of_perm_of_map_fst_eq :
    ∀ {p p' : List (ℚ × ℚ)}, p.Perm p' → p.map Prod.fst = p'.map Prod.fst →
      (p.map Prod.fst).Nodup → p = p'
  | [], p', hperm, _, _ => (hperm.nil_eq).symm ▸ rfl
  | (x, u) :: t, p', hperm, hfst, hnd => by
    cases p' with
    | nil => exact absurd hperm.length_eq (by simp)
    | cons y t' =>
      simp only [List.map_cons, List.cons.injEq] at hfst
      have hy1 : y.1 = x := hfst.1.symm
      have hmem : (x, u) ∈ y :: t' := hperm.mem_iff.mp (List.mem_cons_self _ _)
      have hynd := hnd
      rw [List.map_cons, List.nodup_cons] at hynd
      have hyeq : y = (x, u) := by
        rcases List.mem_cons.mp hmem with h | h
        · exact h.symm
        · exfalso
          apply hynd.1
          rw [hfst.2]
          exact List.mem_map_of_mem Prod.fst h
      subst hyeq
      have htperm : t.Perm t' := hperm.cons_inv
      have := eq_of_perm_of_map_fst_eq htperm hfst.2 hynd.2
      rw [this]

/-- A zipped pair list is the index map over `range` (equal lengths). -/
theorem zip_eq_map_range (a w : List ℚ) (hlen : a.length = w.length) :
    a.zip w = (List.range a.length).map (fun i => (a.getD i 0, w.getD i 0)) := by
  apply List.ext_getElem
  · rw [List.length_zip, List.length_map, List.length_range]
    omega
  · intro i h1 h2
    have hia : i < a.length := by
      rw [List.length_zip] at h1
      omega
    have hiw : i < w.length := by
      rw [List.length_zip] at h1
      omega
    rw [List.getElem_zip, List.getElem_map, List.getElem_range,
      List.getD_eq_getElem _ _ hia, List.getD_eq_getElem _ _ hiw]

/-- C6 (counterexample): with tied sample values whose weights differ, a valid
ascending sorter permutation can give a different result than the stable
argsort used when no sorter is supplied: for `a = [1,1,2]`, `w = [1,3,1]`,
rank 60, the sorter `[1,0,2]` (which sorts `a` ascending) yields 1 while the
no-sorter call yields 5/4. -/
theorem C6_counterexample :
    ([1, 0, 2] : List ℕ).Perm (List.range ([1, 1, 2] : List ℚ).length) ∧
    List.Sorted (· ≤ ·)
      (([1, 0, 2] : List ℕ).map fun i => ([1, 1, 2] : List ℚ).getD i 0) ∧
    (∀ x ∈ ([1, 3, 1] : List ℚ), x ≠ 0) ∧
    weighted_percentile [1, 1, 2] (.scalar 60) (some [1, 3, 1]) (some [1, 0, 2])
      = .ok (.arr [1]) ∧
    weighted_percentile [1, 1, 2] (.scalar 60) (some [1, 3, 1]) none
      = .ok (.arr [5 / 4]) ∧
    ((1 : ℚ) ≠ 5 / 4) := by
  refine ⟨by decide, by decide, by norm_num, ?_, ?_, by norm_num⟩
  · norm_num [weighted_percentile, wsOf, flattenQ, wpSorted, filterNZ, sortPairs,
      List.insertionSort, List.orderedInsert, cumsum, cumsumFrom, positions,
      searchsorted, List.countP_cons, interpOne, pairLE, Except.map, applySorter]
  · norm_num [weighted_percentile, wsOf, flattenQ, wpSorted, filterNZ, sortPairs,
      List.insertionSort, List.orderedInsert, cumsum, cumsumFrom, positions,
      searchsorted, List.countP_cons, interpOne, pairLE, Except.map, applySorter]

/-- C6 (amended): when the sample values are pairwise distinct (no ties) and
all weights are nonzero, calling with any permutation `sorter` that puts the
samples in ascending order gives the same result as calling with no sorter.
(The tie-insensitivity of the original claim fails: with ties the sorter may
pair weights with tied values differently than the argsort does, moving the
interpolation brackets — see the counterexample.) -/
theorem C6_amended_sorter_irrelevant_for_distinct (a w : List ℚ) (q : NDVal)
    (s : List ℕ) (hlen : a.length = w.length) (hnz : ∀ x ∈ w, x ≠ 0)
    (hnd : a.Nodup) (hperm : s.Perm (List.range a.length))
    (hsorted : List.Sorted (· ≤ ·) (s.map fun i => a.getD i 0)) :
    weighted_percentile a q (some w) (some s)
      = weighted_percentile a q (some w) none := by
  have hmem_lt : ∀ i ∈ s, i < a.length := fun i hi =>
    List.mem_range.mp (hperm.mem_iff.mp hi)
  have hall_a : (s.all fun i => decide (i < a.length)) = true :=
    List.all_eq_true.mpr fun i hi => decide_eq_true (hmem_lt i hi)
  have hall_w : (s.all fun i => decide (i < w.length)) = true :=
    List.all_eq_true.mpr fun i hi => decide_eq_true (hlen ▸ hmem_lt i hi)
  -- the reordered, filtered pairs coincide with the argsort-sorted pairs
  have hcore : filterNZ (s.map fun i => a.getD i 0) (s.map fun i => w.getD i 0)
      = sortPairs (filterNZ a w) := by
    have hzip1 : ((s.map fun i => a.getD i 0).zip (s.map fun i => w.getD i 0))
        = s.map fun i => (a.getD i 0, w.getD i 0) := List.zip_map' _ _ s
    have hzip2 : a.zip w
        = (List.range a.length).map fun i => (a.getD i 0, w.getD i 0) :=
      zip_eq_map_range a w hlen
    have hpairs_perm : (s.map fun i => (a.getD i 0, w.getD i 0)).Perm (a.zip w) := by
      rw [hzip2]
      exact hperm.map _
    have hfil1 : filterNZ (s.map fun i => a.getD i 0) (s.map fun i => w.getD i 0)
        = s.map fun i => (a.getD i 0, w.getD i 0) := by
      rw [filterNZ, hzip1, List.filter_eq_self]
      intro p hp
      rw [List.mem_map] at hp
      obtain ⟨i, hi, rfl⟩ := hp
      simp only [decide_eq_true_eq]
      exact hnz _ (getD_mem_of_lt (hlen ▸ hmem_lt i hi))
    have hfil2 : filterNZ a w = a.zip w := by
      rw [filterNZ, List.filter_eq_self]
      intro p hp
      simp only [decide_eq_true_eq]
      exact hnz _ (List.of_mem_zip hp).2
    rw [hfil1, hfil2]
    -- both sides are sorted permutations of `a.zip w` with Nodup keys
    have hperm2 : (s.map fun i => (a.getD i 0, w.getD i 0)).Perm
        (sortPairs (a.zip w)) :=
      hpairs_perm.trans (sortPairs_perm (a.zip w)).symm
    have hfst1 : (s.map fun i => (a.getD i 0, w.getD i 0)).map Prod.fst
        = s.map fun i => a.getD i 0 := by
      rw [List.map_map]
      rfl
    have hfst_sorted1 : List.Sorted (· ≤ ·)
        ((s.map fun i => (a.getD i 0, w.getD i 0)).map Prod.fst) := by
      rw [hfst1]
      exact hsorted
    have hfst_sorted2 : List.Sorted (· ≤ ·)
        ((sortPairs (a.zip w)).map Prod.fst) :=
      sorted_fst_of_pairLE (sortPairs_sorted _)
    have hfst_perm : ((s.map fun i => (a.getD i 0, w.getD i 0)).map Prod.fst).Perm
        ((sortPairs (a.zip w)).map Prod.fst) := hperm2.map _
    have hfst_eq : (s.map fun i => (a.getD i 0, w.getD i 0)).map Prod.fst
        = (sortPairs (a.zip w)).map Prod.fst :=
      List.eq_of_perm_of_sorted hfst_perm hfst_sorted1 hfst_sorted2
    have hfst_nodup : ((s.map fun i => (a.getD i 0, w.getD i 0)).map Prod.fst).Nodup := by
      have hza : (a.zip w).map Prod.fst = a := List.map_fst_zip a w (le_of_eq hlen)
      have hperm3 : ((a.zip w).map Prod.fst).Perm
          ((s.map fun i => (a.getD i 0, w.getD i 0)).map Prod.fst) :=
        (hpairs_perm.map _).symm
      have h0 : ((a.zip w).map Prod.fst).Nodup := by
        rw [hza]
        exact hnd
      exact hperm3.nodup h0
    exact eq_of_perm_of_map_fst_eq hperm2 hfst_eq hfst_nodup
  -- push through the (identical) validation stages
  simp only [weighted_percentile, wsOf_some]
  refine if_congr Iff.rfl rfl (if_congr Iff.rfl rfl (if_congr Iff.rfl rfl ?_))
  rw [applySorter, if_pos hall_a, applySorter, if_pos hall_w]
  show Except.map NDVal.arr (wpSorted (filterNZ (s.map fun i => a.getD i 0)
      (s.map fun i => w.getD i 0)) (flattenQ q)) = _
  rw [hcore]

theorem C6_amended_witness :
    ([1, 0, 2] : List ℕ).Perm (List.range ([2, 1, 3] : List ℚ).length) ∧
    List.Sorted (· ≤ ·)
      (([1, 0, 2] : List ℕ).map fun i => ([2, 1, 3] : List ℚ).getD i 0) ∧
    ([2, 1, 3] : List ℚ).Nodup ∧
    weighted_percentile [2, 1, 3] (.scalar 50) (some [1, 2, 3]) (some [1, 0, 2])
      = weighted_percentile [2, 1, 3] (.scalar 50) (some [1, 2, 3]) none :=
  ⟨by decide, by decide, by decide,
    C6_amended_sorter_irrelevant_for_distinct [2, 1, 3] [1, 2, 3] (.scalar 50)
      [1, 0, 2] (by decide) (by norm_num) (by decide) (by decide) (by decide)⟩

end SkGarden
